import Mathlib

/-!
Verification of the backend-facade contract of the pytket repository
(`examples/backends_example.ipynb`).  The repository slice contains only the
tutorial notebook: the library functions it calls (`counts_from_shot_table`,
`expectation_from_shots`, `get_shots`, `compile_circuit`, `valid_circuit`,
`process_circuits`, `get_state`, `get_unitary`) are declared and exercised
there but their bodies live outside the slice, so each is modelled from the
specification's words, faithful to the behaviour the notebook exhibits.
-/

namespace PytketBackends

/-- One classical readout bit. -/
abbrev Bit := Bool

/-- One shot: the final readout of a single circuit run, one entry per
classical bit (column convention: right-to-left / little-endian). -/
abbrev Row := List Bit

/-- A shot table: ordered sequence of per-shot readouts, one row per
repetition. -/
abbrev ShotTable := List Row

/-- Modelled from the spec: `counts_from_shot_table(shot table) -> counts map`
(the pytket utility is not in the repository slice).  Groups identical
bit-tuples and counts occurrences; the output is an association list whose
keys are the distinct rows of the table (insertion order irrelevant) and whose
value at a key is the number of rows equal to it. -/
def counts_from_shot_table (T : ShotTable) : List (Row × Nat) :=
  T.dedup.map (fun r => (r, T.count r))

/-- The error kinds of the facade (spec §7). -/
inductive BackendError where
  | InvalidArgument
  | CompilationError
  | UnsupportedOperation
  | ExecutionFailure
deriving DecidableEq, Repr

/-- The gate vocabulary needed by the notebook's circuits: Hadamard,
controlled-X, X/Y rotations, the `SX`/`Rz` native gates of an IBM-style
target, a conditional X (classically controlled), and measurement into a
classical bit.  Rotation angles are kept symbolic as rational multiples of π
(numerator/denominator), which is all the facade ever inspects. -/
inductive Gate where
  | H (q : Nat)
  | X (q : Nat)
  | Y (q : Nat)
  | CX (a b : Nat)
  | Rx (num den : Int) (q : Nat)
  | Rz (num den : Int) (q : Nat)
  | SX (q : Nat)
  | CondX (bit q : Nat)
  | Measure (q bit : Nat)
deriving DecidableEq, Repr

/-- A circuit: an ordered set of addressable qubits and classical bits with a
sequence of operations (spec §3). -/
structure Circuit where
  nQubits : Nat
  nBits : Nat
  gates : List Gate
deriving DecidableEq, Repr

/-- An execution target's structural limits: qubit count and classical-control
(conditional-gate) support.  Spec §4.1: a circuit "within the target's
qubit-count and classical-control limits" is one satisfying both. -/
structure Target where
  maxQubits : Nat
  supportsConditional : Bool
deriving DecidableEq, Repr

/-- Whether a gate is classically controlled. -/
def isCondGate : Gate → Bool
  | .CondX _ _ => true
  | _ => false

/-- Whether a circuit uses classical control anywhere. -/
def usesConditional (c : Circuit) : Bool := c.gates.any isCondGate

/-- Membership of a gate in the target's native gate set (IBM-style basis:
`Rz`, `SX`, `CX`, measurement; conditional gates only when the target supports
classical control). -/
def Target.nativeGate (t : Target) : Gate → Bool
  | .Rz _ _ _ => true
  | .SX _ => true
  | .CX _ _ => true
  | .Measure _ _ => true
  | .CondX _ _ => t.supportsConditional
  | _ => false

/-- Modelled from the spec: `valid_circuit(circuit) -> boolean` (the pytket
backend method is not in the repository slice).  Reports whether the circuit
satisfies the target's structural constraints — qubit count within the limit
and every gate in the native gate set (which encodes classical-control
support) — without executing the circuit. -/
def valid_circuit (t : Target) (c : Circuit) : Bool :=
  decide (c.nQubits ≤ t.maxQubits) && c.gates.all t.nativeGate

/-- Translation of one gate into the native basis: non-native single-qubit
gates are rewritten into `Rz`/`SX` sequences, native gates pass through. -/
def translateGate : Gate → List Gate
  | .H q => [.Rz 1 2 q, .SX q, .Rz 1 2 q]
  | .X q => [.SX q, .SX q]
  | .Y q => [.Rz 1 1 q, .SX q, .SX q]
  | .Rx n d q => [.Rz 1 2 q, .SX q, .Rz n d q, .SX q, .Rz (-1) 2 q]
  | g => [g]

/-- Modelled from the spec: `default_compilation_pass -> Pass` (not in the
repository slice).  The target-specific minimal transformation: rewrite every
gate into the native basis, nothing more; no optimisation beyond validity. -/
def default_compilation_pass (t : Target) (c : Circuit) : Circuit :=
  { c with gates := c.gates.flatMap translateGate }

/-- Modelled from the spec: `compile_circuit(circuit)` (not in the repository
slice).  Applies `default_compilation_pass` (the in-place mutation of the
Python API becomes returning the rewritten circuit); fails with
`CompilationError` when the input exceeds the target's qubit-count or
classical-control limits. -/
def compile_circuit (t : Target) (c : Circuit) : Except BackendError Circuit :=
  if t.maxQubits < c.nQubits ∨ (usesConditional c = true ∧ t.supportsConditional = false) then
    .error .CompilationError
  else
    .ok (default_compilation_pass t c)

/-- Being within the target's qubit-count and classical-control limits
(spec §4.1, the precondition of `default_compilation_pass`'s guarantee). -/
def withinLimits (t : Target) (c : Circuit) : Prop :=
  c.nQubits ≤ t.maxQubits ∧ (usesConditional c = true → t.supportsConditional = true)

instance (t : Target) (c : Circuit) : Decidable (withinLimits t c) := by
  unfold withinLimits
  infer_instance

/-- Modelled from the spec: the validity check as the caller sees it — a
result channel that can in principle carry errors, so that "never throws"
is expressible.  `valid_circuit` itself is a total boolean predicate, so the
check always answers `.ok`. -/
def checkValidity (t : Target) (c : Circuit) : Except BackendError Bool :=
  .ok (valid_circuit t c)

@[simp]
theorem translateGate_all_native (t : Target) (g : Gate)
    (h : isCondGate g = false ∨ t.supportsConditional = true) :
    (translateGate g).all t.nativeGate = true := by
  cases g <;> simp_all [translateGate, Target.nativeGate, isCondGate]

theorem bind_translate_all_native (t : Target) (gs : List Gate)
    (h : ∀ g ∈ gs, isCondGate g = false ∨ t.supportsConditional = true) :
    (gs.flatMap translateGate).all t.nativeGate = true := by
  induction gs with
  | nil => rfl
  | cons g gs ih =>
    rw [List.flatMap_cons, List.all_append]
    have h1 := translateGate_all_native t g (h g (List.mem_cons_self g gs))
    have h2 := ih (fun g' hg' => h g' (List.mem_cons_of_mem g hg'))
    simp [h1, h2]

theorem compile_circuit_ok_of_withinLimits (t : Target) (c : Circuit)
    (h : withinLimits t c) :
    compile_circuit t c = .ok (default_compilation_pass t c) ∧
      valid_circuit t (default_compilation_pass t c) = true := by
  obtain ⟨hq, hcond⟩ := h
  constructor
  · unfold compile_circuit
    rw [if_neg]
    rintro (h1 | ⟨h2, h3⟩)
    · omega
    · rw [hcond h2] at h3
      simp at h3
  · unfold valid_circuit default_compilation_pass
    simp only [Bool.and_eq_true, decide_eq_true_eq]
    refine ⟨hq, bind_translate_all_native t c.gates ?_⟩
    intro g hg
    by_cases hc : isCondGate g = true
    · refine Or.inr (hcond ?_)
      unfold usesConditional
      exact List.any_eq_true.mpr ⟨g, hg, hc⟩
    · exact Or.inl (Bool.not_eq_true _ ▸ hc)

theorem compile_circuit_error_of_not_withinLimits (t : Target) (c : Circuit)
    (h : ¬ withinLimits t c) :
    compile_circuit t c = .error .CompilationError := by
  unfold compile_circuit
  rw [if_pos]
  unfold withinLimits at h
  push_neg at h
  by_cases hq : c.nQubits ≤ t.maxQubits
  · obtain ⟨hu, hs⟩ := h hq
    exact Or.inr ⟨hu, Bool.not_eq_true _ ▸ hs⟩
  · exact Or.inl (by omega)

theorem valid_implies_withinLimits (t : Target) (c : Circuit)
    (h : valid_circuit t c = true) : withinLimits t c := by
  unfold valid_circuit at h
  simp only [Bool.and_eq_true, decide_eq_true_eq, List.all_eq_true] at h
  refine ⟨h.1, fun hu => ?_⟩
  unfold usesConditional at hu
  obtain ⟨g, hg, hcond⟩ := List.any_eq_true.mp hu
  have := h.2 g hg
  cases g <;> simp_all [isCondGate, Target.nativeGate]

/-- The notebook (cell 16): shot-table columns are "ordered right-to-left to
fit the little-endian convention".  Reading classical bit `i` out of a stored
row therefore looks at column `length - 1 - i`. -/
def shotBit (r : Row) (i : Nat) : Bit :=
  r.getD (r.length - 1 - i) false

/-- How a readout (the value of each classical bit) is laid out as a shot-table
row: column `j` holds bit `width - 1 - j`, i.e. bit 0 is the rightmost column
(little-endian), the fixed convention of shot tables. -/
def rowOfReadout (width : Nat) (bitValue : Nat → Bit) : Row :=
  (List.range width).map (fun j => bitValue (width - 1 - j))

/-- A simulated target's sampler: a pure pseudo-random readout generator,
determined by the seed, the circuit and the shot index.  A readout assigns a
value to each classical bit of the circuit. -/
structure SimBackend where
  sample : Nat → Circuit → Nat → (Nat → Bit)

/-- Run `n` repetitions from seed `s`: each shot's readout is stored as a row
in the fixed little-endian column convention. -/
def run_shots (b : SimBackend) (c : Circuit) (n : Nat) (s : Nat) : ShotTable :=
  (List.range n).map (fun i => rowOfReadout c.nBits (b.sample s c i))

/-- Modelled from the spec: `get_shots(circuit, n_shots, seed?) -> shot table`
(the pytket backend method is not in the repository slice).  Requests
`n_shots` independent repetitions; a provided seed makes simulated sampling
reproducible (the backend's internal generator state `rng` is used only when
no seed is given); fails with `InvalidArgument` when `n_shots <= 0`. -/
def get_shots (b : SimBackend) (c : Circuit) (n_shots : Int) (seed : Option Nat)
    (rng : Nat) : Except BackendError ShotTable :=
  if n_shots ≤ 0 then .error .InvalidArgument
  else .ok (run_shots b c n_shots.toNat (seed.getD rng))

/-- A job handle: identifies an in-flight or completed submission. -/
structure JobHandle where
  jobId : Nat
deriving DecidableEq, Repr

/-- A backend's result store: jobs submitted but not yet evaluated (each with
its requested shot count), the results cache keyed by submitted-circuit
identity, and the internal generator state. -/
structure BackendState where
  pending : List (Circuit × Nat)
  cache : List (Circuit × ShotTable)
  rng : Nat
deriving Repr

/-- Lookup of a circuit's cached result. -/
def lookupTable : List (Circuit × ShotTable) → Circuit → Option ShotTable
  | [], _ => none
  | (c', tbl) :: rest, c => if c' = c then some tbl else lookupTable rest c

/-- Lookup of a circuit's pending job (its requested shot count). -/
def lookupJob : List (Circuit × Nat) → Circuit → Option Nat
  | [], _ => none
  | (c', n) :: rest, c => if c' = c then some n else lookupJob rest c

/-- Modelled from the spec: `process_circuits(circuits, n_shots) -> sequence
of Job handles` (not in the repository slice).  Submits the batch and returns
one handle per circuit immediately: the circuits are only recorded as pending
jobs, nothing is evaluated and the cache is untouched. -/
def process_circuits (cs : List Circuit) (n_shots : Nat) (st : BackendState) :
    List JobHandle × BackendState :=
  ((List.range cs.length).map (fun i => ⟨st.pending.length + i⟩),
   { st with pending := st.pending ++ cs.map (fun c => (c, n_shots)) })

/-- Modelled from the spec: result retrieval on a circuit with a pending or
completed job (spec §4.1 last bullet; not in the repository slice).  Returns
the cached result if available; if the circuit's job is pending, blocks until
it completes — modelled as evaluating the job now and caching its table; a
circuit never submitted is a malformed request. -/
def get_shots_retrieve (b : SimBackend) (c : Circuit) (st : BackendState) :
    Except BackendError (ShotTable × BackendState) :=
  match lookupTable st.cache c with
  | some tbl => .ok (tbl, st)
  | none =>
    match lookupJob st.pending c with
    | some n =>
      let tbl := run_shots b c n st.rng
      .ok (tbl, { st with cache := (c, tbl) :: st.cache, rng := st.rng + 1 })
    | none => .error .InvalidArgument

/-- The per-bit factor `1 - 2*bit` of the parity observable. -/
def bitSign (b : Bit) : ℚ := 1 - 2 * (if b then 1 else 0)

/-- The all-qubit parity of one readout row: the product of `1 - 2*bit` over
its bits (+1 for even parity, -1 for odd). -/
def rowParityTerm (r : Row) : ℚ := (r.map bitSign).prod

/-- Modelled from the spec: `expectation_from_shots(shot table) -> scalar`
(the pytket utility is not in the repository slice).  The expectation of the
all-qubit parity observable averaged over rows: the mean of
`product(1 - 2*bit)` per row.  Exact rational arithmetic stands in for the
floating-point of the original. -/
def expectation_from_shots (T : ShotTable) : ℚ :=
  (T.map rowParityTerm).sum / T.length

/-- Flip the bit at position `i` of a row (a single-bit-flip readout). -/
def flipAt (r : Row) (i : Nat) : Row :=
  r.set i (!(r.getD i false))

/-- A shot table whose rows alternate evenly between a readout and a
single-bit-flip of it: one such pair per entry. -/
def altTable (ps : List (Row × Nat)) : ShotTable :=
  ps.flatMap (fun p => [p.1, flipAt p.1 p.2])

theorem rowParityTerm_parity (r : Row) :
    rowParityTerm r = if r.count true % 2 = 0 then 1 else -1 := by
  induction r with
  | nil => rfl
  | cons b r ih =>
    unfold rowParityTerm at *
    rw [List.map_cons, List.prod_cons, ih]
    cases b
    · simp [bitSign, List.count_cons]
    · simp only [List.count_cons, beq_self_eq_true, if_true, bitSign]
      rcases Nat.mod_two_eq_zero_or_one (r.count true) with h | h
      · have h1 : (r.count true + 1) % 2 = 1 := by omega
        simp [h, h1]
        norm_num
      · have h1 : (r.count true + 1) % 2 = 0 := by omega
        simp [h, h1]
        norm_num

theorem rowParityTerm_all_false (r : Row) (h : ∀ b ∈ r, b = false) :
    rowParityTerm r = 1 := by
  induction r with
  | nil => rfl
  | cons b r ih =>
    unfold rowParityTerm at *
    rw [List.map_cons, List.prod_cons, ih (fun b' hb' => h b' (List.mem_cons_of_mem b hb'))]
    rw [h b (List.mem_cons_self b r)]
    simp [bitSign]

theorem rowParityTerm_flipAt (r : Row) (i : Nat) (h : i < r.length) :
    rowParityTerm (flipAt r i) = - rowParityTerm r := by
  induction r generalizing i with
  | nil => simp at h
  | cons b r ih =>
    cases i with
    | zero =>
      unfold flipAt rowParityTerm
      simp only [List.set_cons_zero, List.getD_cons_zero, List.map_cons, List.prod_cons]
      cases b <;> simp [bitSign, rowParityTerm] <;> ring
    | succ i =>
      unfold flipAt rowParityTerm at *
      simp only [List.set_cons_succ, List.getD_cons_succ, List.map_cons, List.prod_cons]
      rw [ih i (by simpa using h)]
      ring

theorem altTable_sum (ps : List (Row × Nat)) (h : ∀ p ∈ ps, p.2 < p.1.length) :
    ((altTable ps).map rowParityTerm).sum = 0 := by
  induction ps with
  | nil => rfl
  | cons p ps ih =>
    unfold altTable at *
    rw [List.flatMap_cons, List.map_append, List.sum_append,
      ih (fun q hq => h q (List.mem_cons_of_mem p hq))]
    have := rowParityTerm_flipAt p.1 p.2 (h p (List.mem_cons_self p ps))
    simp [this]

/-- An element `ra + rb * sqrt 2` of the ring ℚ[√2], exact arithmetic for the
amplitudes the Bell example produces (the notebook's `0.70710678` is the
float rendering of `1/sqrt 2`, here `⟨0, 1/2⟩`). -/
structure Q2 where
  ra : ℚ
  rb : ℚ
deriving DecidableEq, Repr

def Q2.zero : Q2 := ⟨0, 0⟩

def Q2.one : Q2 := ⟨1, 0⟩

def Q2.add (x y : Q2) : Q2 := ⟨x.ra + y.ra, x.rb + y.rb⟩

def Q2.mul (x y : Q2) : Q2 := ⟨x.ra * y.ra + 2 * x.rb * y.rb, x.ra * y.rb + x.rb * y.ra⟩

def Q2.neg (x : Q2) : Q2 := ⟨-x.ra, -x.rb⟩

/-- The amplitude `1 / sqrt 2 = (1/2) * sqrt 2`. -/
def invSqrt2 : Q2 := ⟨0, 1/2⟩

/-- A state vector over the 2-qubit basis (4 amplitudes, ILO-BE order). -/
abbrev Vec := List Q2

/-- A 4×4 matrix as a list of rows. -/
abbrev Mat := List (List Q2)

def dot (u v : List Q2) : Q2 :=
  (List.zipWith Q2.mul u v).foldr Q2.add Q2.zero

def matVec (m : Mat) (v : Vec) : Vec :=
  m.map (fun row => dot row v)

def matCol (m : Mat) (j : Nat) : List Q2 :=
  m.map (fun row => row.getD j Q2.zero)

def matMul (m1 m2 : Mat) : Mat :=
  m1.map (fun row => (List.range 4).map (fun j => dot row (matCol m2 j)))

/-- The 4×4 identity. -/
def idMat : Mat :=
  [[Q2.one, Q2.zero, Q2.zero, Q2.zero],
   [Q2.zero, Q2.one, Q2.zero, Q2.zero],
   [Q2.zero, Q2.zero, Q2.one, Q2.zero],
   [Q2.zero, Q2.zero, Q2.zero, Q2.one]]

/-- The basis vector `|00>` = `[1,0,0,0]`. -/
def e00 : Vec := [Q2.one, Q2.zero, Q2.zero, Q2.zero]

/-- The unitary of one gate on a 2-qubit register in ILO-BE basis order
(basis index of `|q0 q1>` is `2*q0 + q1`): Hadamard on either qubit and
controlled-X in either direction; gates outside the pre-measurement 2-qubit
fragment the Bell example exercises act as the identity. -/
def gateUnitary2 : Gate → Mat
  | .H 0 =>
    [[invSqrt2, Q2.zero, invSqrt2, Q2.zero],
     [Q2.zero, invSqrt2, Q2.zero, invSqrt2],
     [invSqrt2, Q2.zero, invSqrt2.neg, Q2.zero],
     [Q2.zero, invSqrt2, Q2.zero, invSqrt2.neg]]
  | .H 1 =>
    [[invSqrt2, invSqrt2, Q2.zero, Q2.zero],
     [invSqrt2, invSqrt2.neg, Q2.zero, Q2.zero],
     [Q2.zero, Q2.zero, invSqrt2, invSqrt2],
     [Q2.zero, Q2.zero, invSqrt2, invSqrt2.neg]]
  | .CX 0 1 =>
    [[Q2.one, Q2.zero, Q2.zero, Q2.zero],
     [Q2.zero, Q2.one, Q2.zero, Q2.zero],
     [Q2.zero, Q2.zero, Q2.zero, Q2.one],
     [Q2.zero, Q2.zero, Q2.one, Q2.zero]]
  | .CX 1 0 =>
    [[Q2.one, Q2.zero, Q2.zero, Q2.zero],
     [Q2.zero, Q2.zero, Q2.zero, Q2.one],
     [Q2.zero, Q2.zero, Q2.one, Q2.zero],
     [Q2.zero, Q2.one, Q2.zero, Q2.zero]]
  | _ => idMat

/-- Modelled from the spec: `get_state(circuit) -> state vector` on an exact
2-qubit simulator (the pytket backend method is not in the repository slice).
Applies each gate's unitary in sequence to the all-zero initial state. -/
def get_state (c : Circuit) : Vec :=
  c.gates.foldl (fun v g => matVec (gateUnitary2 g) v) e00

/-- Modelled from the spec: `get_unitary(circuit) -> unitary matrix` on an
exact 2-qubit simulator (not in the repository slice).  The product of the
gate unitaries in application order. -/
def get_unitary (c : Circuit) : Mat :=
  c.gates.foldl (fun m g => matMul (gateUnitary2 g) m) idMat

/-- The notebook's Bell circuit before measurement: H on qubit 0, then
controlled-X from qubit 0 to qubit 1. -/
def bellCircuit : Circuit := ⟨2, 0, [.H 0, .CX 0 1]⟩

/-- The Bell state `(|00> + |11>)/sqrt 2`, the vector `[0.7071, 0, 0, 0.7071]`
of the notebook in exact form. -/
def bellVec : Vec := [invSqrt2, Q2.zero, Q2.zero, invSqrt2]

/-- Basis ordering conventions for state-vector retrieval (the notebook's
`BasisOrder` enum): `ilo` is the default increasing-lexicographic big-endian
order; `dlo` the alternative convention, selectable when retrieving states or
unitaries from backends. -/
inductive BasisOrder where
  | ilo
  | dlo
deriving DecidableEq, Repr

/-- Basis index of a computational basis label under a convention: `ilo`
(big-endian, qubit 0 most significant) or `dlo` (the reversed, little-endian
reading). -/
def stateIndex : BasisOrder → List Bit → Nat
  | .ilo, bits => bits.foldl (fun acc b => 2 * acc + (if b then 1 else 0)) 0
  | .dlo, bits => bits.foldr (fun b acc => 2 * acc + (if b then 1 else 0)) 0

/-! Helper lemmas and concrete fixtures from the notebook. -/

theorem sum_map_one_rat (T : ShotTable) : (T.map (fun _ => (1 : ℚ))).sum = T.length := by
  induction T with
  | nil => rfl
  | cons r T ih =>
    rw [List.map_cons, List.sum_cons, ih, List.length_cons]
    push_cast
    ring

theorem lookupJob_map_const (cs : List Circuit) (n : Nat) (c : Circuit) (hc : c ∈ cs) :
    lookupJob (cs.map (fun c' => (c', n))) c = some n := by
  induction cs with
  | nil => cases hc
  | cons c0 cs ih =>
    rw [List.map_cons]
    unfold lookupJob
    by_cases h : c0 = c
    · simp [h]
    · rw [if_neg h]
      rcases List.mem_cons.mp hc with h1 | h1
      · exact absurd h1.symm h
      · exact ih h1

theorem shotBit_rowOfReadout (w : Nat) (f : Nat → Bit) (i : Nat) (h : i < w) :
    shotBit (rowOfReadout w f) i = f i := by
  unfold shotBit rowOfReadout
  have hlen : ((List.range w).map (fun j => f (w - 1 - j))).length = w := by simp
  rw [hlen]
  have hk : w - 1 - i < w := by omega
  rw [List.getD_eq_getElem _ _ (by simpa using hk)]
  simp only [List.getElem_map, List.getElem_range]
  congr 1
  omega

theorem run_shots_length (b : SimBackend) (c : Circuit) (n s : Nat) :
    (run_shots b c n s).length = n := by
  unfold run_shots
  rw [List.length_map, List.length_range]

/-- The noisy shot table printed by the notebook (cell 20): rows `11 00 11 10
00 11 00 00 00 01`, whose counts map the notebook prints as
`{(0,0): 5, (0,1): 1, (1,0): 1, (1,1): 3}`. -/
def noisyShots : ShotTable :=
  [[true, true], [false, false], [true, true], [true, false], [false, false],
   [true, true], [false, false], [false, false], [false, false], [false, true]]

/-- A constant-readout simulated target, used to instantiate the generic
theorems at a concrete backend. -/
def constSim : SimBackend := ⟨fun _ _ _ _ => false⟩

/-- A 5-qubit IBM-style target without classical-control support (the
notebook's `ibmq_essex` device). -/
def essexTarget : Target := ⟨5, false⟩

/-- The notebook's Bell circuit after `measure_all`. -/
def bellMeasured : Circuit :=
  ⟨2, 2, [.H 0, .CX 0 1, .Measure 0 0, .Measure 1 1]⟩

/-- The notebook's batch of five 2-qubit circuits (cell 36): `Rx(0.2*i)` then
`CX` then `measure_all`, for `i = 0..4`. -/
def batchCircuits : List Circuit :=
  (List.range 5).map (fun i =>
    ⟨2, 2, [.Rx (Int.ofNat i) 5 0, .CX 0 1, .Measure 0 0, .Measure 1 1]⟩)

theorem count_instance_eq (r : Row) (T : List Row) :
    T.count r = @List.count Row instBEqOfDecidableEq r T := by
  unfold List.count
  refine List.countP_congr ?_
  intro a _
  by_cases h : a = r
  · subst h
    simp
  · simp [h]

theorem counts_keys_eq_dedup (T : ShotTable) :
    (counts_from_shot_table T).map Prod.fst = T.dedup := by
  unfold counts_from_shot_table
  rw [List.map_map]
  calc T.dedup.map (Prod.fst ∘ fun r => (r, T.count r))
      = T.dedup.map id := List.map_congr_left (fun a _ => rfl)
    _ = T.dedup := List.map_id T.dedup

theorem counts_values_eq (T : ShotTable) :
    (counts_from_shot_table T).map Prod.snd = T.dedup.map (fun x => T.count x) := by
  unfold counts_from_shot_table
  rw [List.map_map]
  exact List.map_congr_left (fun a _ => rfl)

/-! The claims. -/

/-- C1: `counts_from_shot_table` groups identical bit-tuples and counts their
occurrences: the output keys are distinct, every row of the table is
byte-for-byte equal to exactly one key, each key's count is the number of rows
equal to it, the counts sum to the number of rows, and the output is the same
map (up to order) for any reordering of the table, so its insertion order is
irrelevant. -/
theorem counts_from_shot_table_spec (T T' : ShotTable) (hperm : T.Perm T') :
    ((counts_from_shot_table T).map Prod.fst).Nodup
    ∧ (∀ r ∈ T, r ∈ (counts_from_shot_table T).map Prod.fst)
    ∧ (∀ p ∈ counts_from_shot_table T, p.2 = T.count p.1 ∧ 0 < p.2)
    ∧ ((counts_from_shot_table T).map Prod.snd).sum = T.length
    ∧ (counts_from_shot_table T).Perm (counts_from_shot_table T') := by
  refine ⟨?_, ?_, ?_, ?_, ?_⟩
  · rw [counts_keys_eq_dedup]
    exact List.nodup_dedup T
  · intro r hr
    rw [counts_keys_eq_dedup]
    exact List.mem_dedup.mpr hr
  · intro p hp
    unfold counts_from_shot_table at hp
    obtain ⟨r, hr, hpr⟩ := List.mem_map.mp hp
    subst hpr
    exact ⟨rfl, List.count_pos_iff.mpr (List.mem_dedup.mp hr)⟩
  · rw [counts_values_eq]
    have h1 : T.dedup.map (fun x => T.count x) =
        T.dedup.map (fun x => @List.count Row instBEqOfDecidableEq x T) :=
      List.map_congr_left (fun a _ => count_instance_eq a T)
    rw [h1]
    exact List.sum_map_count_dedup_eq_length T
  · unfold counts_from_shot_table
    have hmap : T'.dedup.map (fun r => (r, T'.count r)) =
        T'.dedup.map (fun r => (r, T.count r)) :=
      List.map_congr_left (fun r _ => congrArg (fun n => (r, n)) (hperm.countP_eq _).symm)
    rw [hmap]
    exact hperm.dedup.map _

/-- C1 witness: the theorem instantiated at the notebook's noisy shot table
(and a reordering of it). -/
theorem counts_from_shot_table_spec_witness :
    ((counts_from_shot_table noisyShots).map Prod.fst).Nodup
    ∧ (∀ r ∈ noisyShots, r ∈ (counts_from_shot_table noisyShots).map Prod.fst)
    ∧ (∀ p ∈ counts_from_shot_table noisyShots, p.2 = noisyShots.count p.1 ∧ 0 < p.2)
    ∧ ((counts_from_shot_table noisyShots).map Prod.snd).sum = noisyShots.length
    ∧ (counts_from_shot_table noisyShots).Perm
        (counts_from_shot_table noisyShots.reverse) :=
  counts_from_shot_table_spec noisyShots noisyShots.reverse
    (List.reverse_perm noisyShots).symm

/-- C2: `get_shots` with a positive shot count returns a table with exactly
that many rows, and fails with `InvalidArgument` for every shot count at or
below zero. -/
theorem get_shots_count_spec (b : SimBackend) (c : Circuit) (seed : Option Nat)
    (rng : Nat) (n : Int) :
    (0 < n → ∃ T, get_shots b c n seed rng = .ok T ∧ (T.length : Int) = n)
    ∧ (n ≤ 0 → get_shots b c n seed rng = .error .InvalidArgument) := by
  constructor
  · intro hn
    unfold get_shots
    rw [if_neg (by omega)]
    refine ⟨_, rfl, ?_⟩
    rw [run_shots_length]
    exact Int.toNat_of_nonneg (le_of_lt hn)
  · intro hn
    unfold get_shots
    rw [if_pos hn]

/-- C2 witness: ten shots are ten rows; zero shots is `InvalidArgument`. -/
theorem get_shots_count_spec_witness :
    (∃ T, get_shots constSim bellMeasured 10 none 0 = .ok T ∧ (T.length : Int) = 10)
    ∧ get_shots constSim bellMeasured 0 none 0 = .error .InvalidArgument :=
  ⟨(get_shots_count_spec constSim bellMeasured none 0 10).1 (by norm_num),
   (get_shots_count_spec constSim bellMeasured none 0 0).2 (by norm_num)⟩

/-- C5: on a simulated target, two `get_shots` calls with the same circuit,
shot count and seed return identical shot tables, whatever the backend's
internal generator state is at each call — a provided seed makes sampling
reproducible. -/
theorem get_shots_seed_reproducible (b : SimBackend) (c : Circuit) (n : Int)
    (s : Nat) (rng1 rng2 : Nat) :
    get_shots b c n (some s) rng1 = get_shots b c n (some s) rng2 := by
  unfold get_shots
  simp only [Option.getD_some]

/-- C3: for a circuit within the target's qubit-count and classical-control
limits, `compile_circuit` applies `default_compilation_pass` (the in-place
mutation, returned here) and `valid_circuit` holds on the result; for a
circuit exceeding those limits it fails with `CompilationError`. -/
theorem compile_circuit_limits (t : Target) (c : Circuit) :
    (withinLimits t c →
      compile_circuit t c = .ok (default_compilation_pass t c)
      ∧ valid_circuit t (default_compilation_pass t c) = true)
    ∧ (¬ withinLimits t c → compile_circuit t c = .error .CompilationError) :=
  ⟨compile_circuit_ok_of_withinLimits t c,
   compile_circuit_error_of_not_withinLimits t c⟩

/-- C3 witness: the notebook's measured Bell circuit compiles for the 5-qubit
target and is valid afterwards; a 6-qubit circuit is rejected. -/
theorem compile_circuit_limits_witness :
    (compile_circuit essexTarget bellMeasured =
        .ok (default_compilation_pass essexTarget bellMeasured)
      ∧ valid_circuit essexTarget (default_compilation_pass essexTarget bellMeasured) = true)
    ∧ compile_circuit essexTarget ⟨6, 0, []⟩ = .error .CompilationError :=
  ⟨(compile_circuit_limits essexTarget bellMeasured).1 (by decide),
   (compile_circuit_limits essexTarget ⟨6, 0, []⟩).2 (by decide)⟩

/-- C6: on a circuit that is already valid for the target, `compile_circuit`
does not raise `CompilationError` and leaves `valid_circuit` true afterwards
(the default pass is valid-preserving on already-valid circuits). -/
theorem compile_circuit_valid_preserving (t : Target) (c : Circuit)
    (h : valid_circuit t c = true) :
    compile_circuit t c = .ok (default_compilation_pass t c)
    ∧ valid_circuit t (default_compilation_pass t c) = true :=
  compile_circuit_ok_of_withinLimits t c (valid_implies_withinLimits t c h)

/-- C6 witness: a circuit already in the native gate set recompiles without
error and stays valid. -/
theorem compile_circuit_valid_preserving_witness :
    compile_circuit essexTarget ⟨2, 2, [.CX 0 1, .Measure 0 0]⟩ =
        .ok (default_compilation_pass essexTarget ⟨2, 2, [.CX 0 1, .Measure 0 0]⟩)
    ∧ valid_circuit essexTarget
        (default_compilation_pass essexTarget ⟨2, 2, [.CX 0 1, .Measure 0 0]⟩) = true :=
  compile_circuit_valid_preserving essexTarget ⟨2, 2, [.CX 0 1, .Measure 0 0]⟩ (by decide)

/-- C7: the validity check is a total boolean report, never an error: for
every target and circuit it answers `.ok` with the boolean verdict of
`valid_circuit`, and on the notebook's well-formed but incompatible Bell
circuit the verdict is the boolean `false`, not a failure. -/
theorem valid_circuit_never_fails :
    (∀ (t : Target) (c : Circuit), checkValidity t c = .ok (valid_circuit t c))
    ∧ checkValidity essexTarget bellMeasured = .ok false :=
  ⟨fun _ _ => rfl, rfl⟩

/-- C4: `expectation_from_shots` is the mean over rows of the all-qubit
parity (+1 for an even-parity row, -1 for odd), i.e. the mean of
`product(1 - 2*bit)` per row; on a nonempty all-zero table it is exactly 1,
and on a table alternating readout/single-bit-flip pairs evenly it is
exactly 0. -/
theorem expectation_from_shots_spec :
    (∀ T : ShotTable, expectation_from_shots T =
      (T.map (fun r => if r.count true % 2 = 0 then (1 : ℚ) else -1)).sum / T.length)
    ∧ (∀ T : ShotTable, T ≠ [] → (∀ r ∈ T, ∀ b ∈ r, b = false) →
        expectation_from_shots T = 1)
    ∧ (∀ ps : List (Row × Nat), (∀ p ∈ ps, p.2 < p.1.length) →
        expectation_from_shots (altTable ps) = 0) := by
  refine ⟨?_, ?_, ?_⟩
  · intro T
    unfold expectation_from_shots
    rw [List.map_congr_left (fun r _ => rowParityTerm_parity r)]
  · intro T hne hzero
    unfold expectation_from_shots
    have h1 : T.map rowParityTerm = T.map (fun _ => (1 : ℚ)) :=
      List.map_congr_left (fun r hr => rowParityTerm_all_false r (hzero r hr))
    rw [h1, sum_map_one_rat]
    have h2 : (T.length : ℚ) ≠ 0 := by
      simp [List.length_eq_zero]
      exact hne
    exact div_self h2
  · intro ps hps
    unfold expectation_from_shots
    rw [altTable_sum ps hps, zero_div]

/-- C4 witness: an all-zero two-row table has expectation 1; the table
`[00, 10]` (a readout and its single-bit-flip) has expectation 0. -/
theorem expectation_from_shots_spec_witness :
    expectation_from_shots [[false, false], [false, false]] = 1
    ∧ expectation_from_shots (altTable [([false, false], 0)]) = 0 :=
  ⟨expectation_from_shots_spec.2.1 [[false, false], [false, false]]
      (by decide) (by decide),
   expectation_from_shots_spec.2.2 [([false, false], 0)] (by decide)⟩

/-- C8: submitting a batch through `process_circuits` returns one job handle
per circuit immediately — nothing is evaluated, the cache stays empty — and a
later retrieval on any circuit of the batch does not fail while its job is
pending: it awaits that job's completion and returns a table with exactly the
requested number of rows. -/
theorem process_circuits_then_get_shots (b : SimBackend) (cs : List Circuit)
    (n rng : Nat) (c : Circuit) (hc : c ∈ cs) :
    (process_circuits cs n ⟨[], [], rng⟩).1.length = cs.length
    ∧ (process_circuits cs n ⟨[], [], rng⟩).2.cache = []
    ∧ ∃ T st', get_shots_retrieve b c (process_circuits cs n ⟨[], [], rng⟩).2 = .ok (T, st')
        ∧ T.length = n := by
  refine ⟨?_, rfl, ?_⟩
  · unfold process_circuits
    rw [List.length_map, List.length_range]
  · unfold process_circuits get_shots_retrieve
    simp only [List.nil_append]
    have hjob : lookupJob (cs.map (fun c' => (c', n))) c = some n :=
      lookupJob_map_const cs n c hc
    have htable : lookupTable ([] : List (Circuit × ShotTable)) c = none := rfl
    rw [htable, hjob]
    exact ⟨_, _, rfl, run_shots_length b c n rng⟩

/-- C8 witness: the notebook's batch of 5 circuits at 100 shots each — 5
handles come back with the cache untouched, and retrieval on the first
circuit returns a 100-row table. -/
theorem process_circuits_then_get_shots_witness :
    (process_circuits batchCircuits 100 ⟨[], [], 0⟩).1.length = batchCircuits.length
    ∧ (process_circuits batchCircuits 100 ⟨[], [], 0⟩).2.cache = []
    ∧ ∃ T st', get_shots_retrieve constSim
        ⟨2, 2, [.Rx 0 5 0, .CX 0 1, .Measure 0 0, .Measure 1 1]⟩
        (process_circuits batchCircuits 100 ⟨[], [], 0⟩).2 = .ok (T, st')
        ∧ T.length = 100 :=
  process_circuits_then_get_shots constSim batchCircuits 100 0
    ⟨2, 2, [.Rx 0 5 0, .CX 0 1, .Measure 0 0, .Measure 1 1]⟩ (by decide)

/-- C9: on the 2-qubit circuit H(0) then CX(0,1), `get_state` is the Bell
vector `[1/sqrt 2, 0, 0, 1/sqrt 2]` (the notebook's `[0.7071, 0, 0, 0.7071]`)
exactly — in particular up to global phase and floating tolerance — and the
`get_unitary` matrix of the same pre-measurement circuit applied to the basis
vector `[1,0,0,0]` reproduces that state; the amplitude squares to 1/2,
pinning `1/sqrt 2` down. -/
theorem bell_state_and_unitary :
    get_state bellCircuit = bellVec
    ∧ matVec (get_unitary bellCircuit) e00 = bellVec
    ∧ Q2.mul invSqrt2 invSqrt2 = ⟨1/2, 0⟩ := by
  refine ⟨?_, ?_, ?_⟩
  · simp [get_state, bellCircuit, bellVec, gateUnitary2, matVec, dot, e00,
      invSqrt2, Q2.mul, Q2.add, Q2.zero, Q2.one, Q2.neg]
  · simp [get_unitary, bellCircuit, bellVec, gateUnitary2, matVec, matMul,
      matCol, dot, e00, idMat, invSqrt2, Q2.mul, Q2.add, Q2.zero, Q2.one,
      Q2.neg, List.range_succ]
  · simp [Q2.mul, invSqrt2]

/-- C10: the shot-table column convention is fixed little-endian — reading
classical bit `i` of a stored row looks at column `width - 1 - i`, so in the
row `[1 0]` bit 0 has value 0 and bit 1 has value 1, and every table returned
by `get_shots` lays its rows out in exactly that convention with no
convention parameter in play — whereas the basis ordering for state
retrieval defaults to ILO-BE (`[1 0]` denotes index 2) with the alternative
DLO convention selectable (`[1 0]` denotes index 1). -/
theorem shot_table_convention (width : Nat) (f : Nat → Bit) (i : Nat)
    (h : i < width) :
    shotBit (rowOfReadout width f) i = f i
    ∧ (shotBit [true, false] 0 = false ∧ shotBit [true, false] 1 = true)
    ∧ (∀ (b : SimBackend) (c : Circuit) (n : Int) (seed : Option Nat)
        (rng : Nat) (T : ShotTable), get_shots b c n seed rng = .ok T →
        ∀ row ∈ T, ∃ g, row = rowOfReadout c.nBits g
          ∧ ∀ j, j < c.nBits → shotBit row j = g j)
    ∧ (stateIndex .ilo [true, false] = 2 ∧ stateIndex .dlo [true, false] = 1) := by
  refine ⟨shotBit_rowOfReadout width f i h, by decide, ?_, by decide⟩
  intro b c n seed rng T hok row hrow
  unfold get_shots at hok
  by_cases hn : n ≤ 0
  · rw [if_pos hn] at hok
    cases hok
  · rw [if_neg hn] at hok
    injection hok with hok
    subst hok
    unfold run_shots at hrow
    obtain ⟨k, _, hk⟩ := List.mem_map.mp hrow
    refine ⟨b.sample (seed.getD rng) c k, hk.symm, fun j hj => ?_⟩
    rw [← hk]
    exact shotBit_rowOfReadout c.nBits _ j hj

/-- C10 witness: a 2-bit readout with bit 1 set is stored as the row `[1 0]`,
and reading it back through the convention recovers the bits. -/
theorem shot_table_convention_witness :
    shotBit (rowOfReadout 2 (fun j => decide (j = 1))) 0 = decide ((0 : Nat) = 1)
    ∧ (shotBit [true, false] 0 = false ∧ shotBit [true, false] 1 = true)
    ∧ (∀ (b : SimBackend) (c : Circuit) (n : Int) (seed : Option Nat)
        (rng : Nat) (T : ShotTable), get_shots b c n seed rng = .ok T →
        ∀ row ∈ T, ∃ g, row = rowOfReadout c.nBits g
          ∧ ∀ j, j < c.nBits → shotBit row j = g j)
    ∧ (stateIndex .ilo [true, false] = 2 ∧ stateIndex .dlo [true, false] = 1) :=
  shot_table_convention 2 (fun j => decide (j = 1)) 0 (by decide)

end PytketBackends
